import Mathlib

/-!
Shallow embedding of `gformvoting.py`, the STV counting engine of
`googleform-preferential-voting`.

Mapping from the Python source:

* a row of the role's vote table (one ballot) ............ `GFV.VoteRow`
* `Vote` (the class: a row plus a transferable value) ..... `GFV.Vote`
* `Vote.voting_for` ....................................... `GFV.Vote.voting_for`
* `discard_informal_votes` ................................ `GFV.discard_informal_votes`
* `find_lowest_candidates` ................................ `GFV.find_lowest_candidates`
* `ElectionManager.__init__` .............................. `GFV.ElectionManager.init`
* `ElectionManager.calculate_total` ....................... `GFV.calculate_total`
* `ElectionManager.tiebreak` / `backwards_tiebreak` /
  `preference_tiebreak` ................................... same names in `GFV`
* `ElectionManager.run` ................................... `GFV.runRound` / `GFV.runRounds` /
                                                            `GFV.ElectionManager.run`

Python floats (ballot values, the quota) are modelled as rationals; `np.nan`
cells are `Option.none`; exceptions (`AssertionError`, attribute errors) are
modelled with `Except GFV.ElectionError`.
-/

deriving instance DecidableEq for Except

namespace GFV

/-- One ballot: one cell per candidate column, in column order.  A cell is
`none` for `np.nan` (no preference) and `some r` for the integer rank `r`. -/
structure VoteRow where
  prefs : List (String × Option Nat)
deriving DecidableEq, Repr

/-- The ranked (non-`nan`) cell values of a ballot, in column order.
Corresponds to pandas skipping `nan` in `any`, `max`, `isin`. -/
def rankedValues (row : VoteRow) : List Nat :=
  row.prefs.filterMap Prod.snd

/-- The test applied to one row by `discard_informal_votes` (lines 122-129):
all-`nan` rows, rows with no rank `1`, and rows where some value in
`1 .. max` does not occur exactly once, are informal. -/
def informal_vote (row : VoteRow) : Bool :=
  let ranks := rankedValues row
  if ranks.isEmpty then
    true
  else
    let no_first_pref := !(ranks.contains 1)
    let maxRank := ranks.foldl max 0
    let not_sequential :=
      !((List.range' 1 maxRank).all (fun p => (ranks.filter (fun r => r == p)).length == 1))
    no_first_pref || not_sequential

/-- `discard_informal_votes` (lines 112-131): drop the informal rows. -/
def discard_informal_votes (rows : List VoteRow) : List VoteRow :=
  rows.filter (fun row => !informal_vote row)

/-- The `len(invalids)` reported by `discard_informal_votes` (line 130). -/
def discarded_count (rows : List VoteRow) : Nat :=
  (rows.filter (fun row => informal_vote row)).length

/-- A role's vote table: candidate columns plus one `VoteRow` per ballot. -/
structure VoteTable where
  cols : List String
  rows : List VoteRow
deriving DecidableEq

/-- The `Vote` class (lines 331-339): the row plus a transferable `value`,
initialised to `1`. -/
structure Vote where
  vote : VoteRow
  value : ℚ
deriving DecidableEq

/-- `Vote.__init__`. -/
def mkVote (row : VoteRow) : Vote :=
  ⟨row, 1⟩

/-- Label lookup `self.vote[c]` for a single candidate column `c`. -/
def lookupRank (prefs : List (String × Option Nat)) (c : String) : Option Nat :=
  match prefs.find? (fun p => p.1 == c) with
  | some p => p.2
  | none => none

/-- `self.vote[valid_candidates]` followed by dropping `nan`s (lines 351-352):
the ballot's ranked entries restricted to `valid`, in the order of `valid`. -/
def activeEntries (row : VoteRow) (valid : List String) : List (String × Nat) :=
  valid.filterMap (fun c => (lookupRank row.prefs c).map (fun r => (c, r)))

/-- Insert an entry into a list sorted by ascending rank (stable). -/
def insertByRank (p : String × Nat) : List (String × Nat) → List (String × Nat)
  | [] => [p]
  | q :: qs => if p.2 ≤ q.2 then p :: q :: qs else q :: insertByRank p qs

/-- Stable sort of the restricted entries by ascending rank.  Models the
`argsort().argsort()` rank-of-rank of line 353; for the unique ranks of a
formal ballot any sort gives the same order. -/
def sortByRank : List (String × Nat) → List (String × Nat)
  | [] => []
  | p :: ps => insertByRank p (sortByRank ps)

/-- `Vote.voting_for` (lines 341-357): the candidate this ballot ranks at
1-based level `preference` once restricted to `valid_candidates`, or `none`
when the ballot ranks fewer than `preference` of them. -/
def Vote.voting_for (v : Vote) (valid_candidates : List String) (preference : Nat) : Option String :=
  ((sortByRank (activeEntries v.vote valid_candidates))[preference - 1]?).map Prod.fst

/-- One row of a round result table: a candidate and its total. -/
structure ResultRow where
  candidate : String
  total : ℚ
deriving DecidableEq, Repr

/-- `resulttable.Total.min()` over a non-empty table (`0` on the empty table,
where `find_lowest_candidates` selects nothing anyway). -/
def minTotal : List ResultRow → ℚ
  | [] => 0
  | r :: rs => (rs.map ResultRow.total).foldl min r.total

/-- `find_lowest_candidates` (lines 149-160): the candidates whose total
equals the minimum total of the table. -/
def find_lowest_candidates (resulttable : List ResultRow) : List String :=
  (resulttable.filter (fun row => row.total == minTotal resulttable)).map ResultRow.candidate

/-- `ElectionManager.calculate_total` (lines 235-255): for each candidate in
`candidates`, the sum of `value` over the votes whose current first
preference restricted to `candidates` is that candidate. -/
def calculate_total (votes : List Vote) (candidates : List String) : List ResultRow :=
  candidates.map (fun c =>
    ⟨c, ((votes.filter (fun v => v.voting_for candidates 1 == some c)).map Vote.value).sum⟩)

/-- `ElectionManager` fields set in `__init__` (lines 164-186). -/
structure ElectionManager where
  votes : List Vote
  n_winners : Nat
  quota : ℚ
  candidates : List String
  remaining_candidates : List String
  winning_candidates : List String
  result_record : List (Nat × List ResultRow)
  allow_random_tiebreak : Bool
deriving DecidableEq

/-- `ElectionManager.__init__`: one `Vote` per table row, the Droop quota
`floor(len(votetable) / (n_winners + 1)) + 1` computed once, all columns
remaining, no winners, empty record, random tiebreak disabled. -/
def ElectionManager.init (votetable : VoteTable) (n_winners : Nat) : ElectionManager :=
  ⟨votetable.rows.map mkVote,
   n_winners,
   ((votetable.rows.length / (n_winners + 1) : Nat) : ℚ) + 1,
   votetable.cols,
   votetable.cols,
   [],
   [],
   false⟩

/-- The failure modes of the counting loop, each mirroring a concrete Python
exception site:

* `unresolvedTie` — the `AssertionError` of `preference_tiebreak` line 328;
* `invariantViolation` — the `AssertionError` of `run` line 213;
* `impossibleEmpty` — the `AssertionError` of `run` line 220;
* `removeMissing` — the `ValueError` `list.remove` raises when the candidate
  to eliminate is no longer in `remaining_candidates` (line 223);
* `emptyResultAccess` — the `AttributeError` raised by `result.Total` when
  the round table is empty (line 196);
* `randomTiebreak` — the `np.random.choice` branch of line 326, which is
  nondeterministic and therefore not modelled further; it is unreachable
  because `allow_random_tiebreak` is always `False` in this program. -/
inductive ElectionError
  | unresolvedTie
  | invariantViolation
  | impossibleEmpty
  | removeMissing
  | emptyResultAccess
  | randomTiebreak (tied : List String)
deriving DecidableEq, Repr

/-- The mutable state of `ElectionManager.run`: the votes (whose values are
mutated by transfers), `remaining_candidates`, `winning_candidates` and
`result_record`. -/
structure ElectionState where
  votes : List Vote
  remaining : List String
  winners : List String
  record : List (Nat × List ResultRow)
deriving DecidableEq

/-- The parameters of `run` that never change during the loop. -/
structure RunParams where
  quota : ℚ
  n_winners : Nat
  candidates : List String
  allow_random_tiebreak : Bool
deriving DecidableEq

/-- The scan of `backwards_tiebreak` (lines 276-284), given the recorded
rounds in scan order: restrict each round's table to the tied candidates and
return the unique lowest candidate of the first round that has one. -/
def backwards_scan (tied : List String) : List (Nat × List ResultRow) → Option String
  | [] => none
  | entry :: rest =>
    match find_lowest_candidates (entry.2.filter (fun row => tied.contains row.candidate)) with
    | [c] => some c
    | _ => backwards_scan tied rest

/-- `ElectionManager.backwards_tiebreak` (lines 272-287).  The source sorts
the recorded round numbers and walks them in descending order; the record is
appended one round per loop iteration with increasing round numbers, so the
descending order of rounds is the reverse of the record. -/
def backwards_tiebreak (record : List (Nat × List ResultRow)) (tied : List String) :
    Option String :=
  backwards_scan tied record.reverse

/-- The `active_votes` of `preference_tiebreak` (line 299): the votes whose
current first preference among `remaining` is a tied candidate. -/
def active_votes (votes : List Vote) (remaining tied : List String) : List Vote :=
  votes.filter (fun v =>
    match v.voting_for remaining 1 with
    | some c => tied.contains c
    | none => false)

/-- One level of the preference tiebreak (lines 302-314): for each tied
candidate, the sum of `value` over the active votes whose raw preference at
level `pref` — computed against the full candidate list — is that
candidate. -/
def preference_round (active : List Vote) (candidates tied : List String) (pref : Nat) :
    List ResultRow :=
  tied.map (fun c =>
    ⟨c, ((active.filter (fun v => v.voting_for candidates pref == some c)).map Vote.value).sum⟩)

/-- The preference-level loop of `preference_tiebreak` (lines 301-328) over
the given list of levels: stop at the first level whose minimum is attained
by exactly one tied candidate; when every level is exhausted, fall back to
the random branch if it is allowed and fail otherwise. -/
def preference_loop (active : List Vote) (candidates tied : List String)
    (allow_random : Bool) : List Nat → Except ElectionError String
  | [] =>
    if allow_random then .error (.randomTiebreak tied) else .error .unresolvedTie
  | pref :: rest =>
    match find_lowest_candidates (preference_round active candidates tied pref) with
    | [c] => .ok c
    | _ => preference_loop active candidates tied allow_random rest

/-- `ElectionManager.preference_tiebreak` (lines 289-328): levels run from
`1` to `len(self.candidates) - 1` (`range(1, len(self.candidates))`). -/
def preference_tiebreak (p : RunParams) (votes : List Vote) (remaining tied : List String) :
    Except ElectionError String :=
  preference_loop (active_votes votes remaining tied) p.candidates tied
    p.allow_random_tiebreak (List.range' 1 (p.candidates.length - 1))

/-- `ElectionManager.tiebreak` (lines 257-270): backwards tiebreak first,
preference tiebreak only if it returns `None`. -/
def tiebreak (p : RunParams) (votes : List Vote) (remaining : List String)
    (record : List (Nat × List ResultRow)) (tied : List String) :
    Except ElectionError String :=
  match backwards_tiebreak record tied with
  | some c => .ok c
  | none => preference_tiebreak p votes remaining tied

/-- The round total recorded for `candidate` in the result table:
`result.loc[result.Candidate == candidate, 'Total']`.  The source reads the
scalar out of this selection with `.value`, an accessor pandas does not
provide; following the spec's note, this is modelled as the already-computed
round total of that candidate (the unique matching row, as `.item()` would
return). -/
def totalFor (result : List ResultRow) (candidate : String) : ℚ :=
  match result.find? (fun row => row.candidate == candidate) with
  | some row => row.total
  | none => 0

/-- The surplus-transfer loop of `run` (lines 204-210): for each newly
elected candidate in order, multiply by `(total - quota) / total` the value
of every vote whose first preference among `remaining` is that candidate.
`remaining` still contains all of this round's winners while the loop runs;
they are removed only afterwards (line 211). -/
def transfer_votes (quota : ℚ) (result : List ResultRow) (remaining : List String)
    (winning : List String) (votes : List Vote) : List Vote :=
  winning.foldl
    (fun vs candidate =>
      let total_value := totalFor result candidate
      let transfer_value := (total_value - quota) / total_value
      vs.map (fun v =>
        if v.voting_for remaining 1 == some candidate then
          ⟨v.vote, v.value * transfer_value⟩
        else v))
    votes

/-- The election block of `run` (lines 196-213).  Returns the updated
winners, votes and remaining candidates, plus `true` when the round `break`s
because all seats are filled. -/
def elect_phase (p : RunParams) (result : List ResultRow) (winners : List String)
    (votes : List Vote) (remaining : List String) :
    Except ElectionError (List String × List Vote × List String × Bool) :=
  let winningRows := result.filter (fun row => p.quota ≤ row.total)
  if winningRows.isEmpty then
    .ok (winners, votes, remaining, false)
  else
    let winning_candidates := winningRows.map ResultRow.candidate
    let winners' := winners ++ winning_candidates
    if winners'.length = p.n_winners then
      .ok (winners', votes, remaining, true)
    else if winners'.length < p.n_winners then
      let votes' := transfer_votes p.quota result remaining winning_candidates votes
      let remaining' := winning_candidates.foldl (fun rem c => rem.erase c) remaining
      .ok (winners', votes', remaining', false)
    else
      .error .invariantViolation

/-- The elimination block of `run` (lines 215-223), applied to the round's
result table and the post-election votes and remaining candidates. -/
def elim_phase (p : RunParams) (result : List ResultRow) (winners' : List String)
    (votes' : List Vote) (remaining' : List String)
    (record' : List (Nat × List ResultRow)) : Except ElectionError ElectionState :=
  let eliminate := fun (c : String) =>
    if remaining'.contains c then
      Except.ok (⟨votes', remaining'.erase c, winners', record'⟩ : ElectionState)
    else
      Except.error ElectionError.removeMissing
  let eliminated_candidate_list := find_lowest_candidates result
  if 1 < eliminated_candidate_list.length then
    match tiebreak p votes' remaining' record' eliminated_candidate_list with
    | .ok c => eliminate c
    | .error e => .error e
  else
    match eliminated_candidate_list with
    | [] => .error .impossibleEmpty
    | c :: _ => eliminate c

/-- One iteration of the round loop of `run` (lines 190-225).  Returns the
state after the round, plus `true` when the loop `break`s. -/
def runRound (p : RunParams) (round : Nat) (s : ElectionState) :
    Except ElectionError (ElectionState × Bool) :=
  let result := calculate_total s.votes s.remaining
  if result.isEmpty then
    .error .emptyResultAccess
  else
    let record' := s.record ++ [(round, result)]
    match elect_phase p result s.winners s.votes s.remaining with
    | .error e => .error e
    | .ok (winners', votes', remaining', brk) =>
      if brk then
        .ok (⟨votes', remaining', winners', record'⟩, true)
      else
        match elim_phase p result winners' votes' remaining' record' with
        | .error e => .error e
        | .ok s' => .ok (s', false)

/-- The round loop of `run` over the given round numbers. -/
def runRounds (p : RunParams) : List Nat → ElectionState → Except ElectionError ElectionState
  | [], s => .ok s
  | r :: rs, s =>
    match runRound p r s with
    | .error e => .error e
    | .ok (s', true) => .ok s'
    | .ok (s', false) => runRounds p rs s'

/-- `ElectionManager.run` (lines 188-227): rounds `1` to
`len(self.candidates)` (`range(1, len(self.candidates) + 1)`). -/
def ElectionManager.run (m : ElectionManager) : Except ElectionError ElectionState :=
  runRounds ⟨m.quota, m.n_winners, m.candidates, m.allow_random_tiebreak⟩
    (List.range' 1 m.candidates.length)
    ⟨m.votes, m.remaining_candidates, m.winning_candidates, m.result_record⟩

/-- The per-role counting done by `main` and by the `__main__` block (lines
360-377 and 393-402): the manager is constructed directly on the role's vote
table and run; `discard_informal_votes` is never invoked on this path. -/
def main_role_count (votetable : VoteTable) (seats : Nat) :
    Except ElectionError ElectionState :=
  (ElectionManager.init votetable seats).run

/-! ## General helper lemmas -/

theorem foldl_min_choice (l : List ℚ) (a : ℚ) : l.foldl min a = a ∨ l.foldl min a ∈ l := by
  induction l generalizing a with
  | nil => left; rfl
  | cons b t ih =>
    simp only [List.foldl_cons]
    rcases ih (min a b) with h | h
    · rcases min_choice a b with h2 | h2
      · left; rw [h, h2]
      · right; rw [h, h2]; exact List.mem_cons_self _ _
    · right; exact List.mem_cons_of_mem _ h

theorem minTotal_attained (result : List ResultRow) (hne : result ≠ []) :
    ∃ row ∈ result, row.total = minTotal result := by
  match result with
  | [] => exact absurd rfl hne
  | r :: rs =>
    rcases foldl_min_choice (rs.map ResultRow.total) r.total with h | h
    · exact ⟨r, List.mem_cons_self _ _, h.symm⟩
    · obtain ⟨row, hrow, htot⟩ := List.mem_map.mp h
      exact ⟨row, List.mem_cons_of_mem _ hrow, htot⟩

theorem find_lowest_candidates_ne_nil (result : List ResultRow) (hne : result ≠ []) :
    find_lowest_candidates result ≠ [] := by
  obtain ⟨row, hrow, htot⟩ := minTotal_attained result hne
  have hmem : row ∈ result.filter (fun r => r.total == minTotal result) :=
    List.mem_filter.mpr ⟨hrow, by simp [htot]⟩
  intro hcontra
  rcases List.eq_nil_or_concat (result.filter (fun r => r.total == minTotal result)) with he | _
  · rw [he] at hmem; exact absurd hmem (List.not_mem_nil row)
  · exact absurd (congrArg List.length hcontra) (by
      simp only [find_lowest_candidates, List.length_map, List.length_nil]
      intro hlen
      rw [List.length_eq_zero] at hlen
      rw [hlen] at hmem
      exact absurd hmem (List.not_mem_nil row))

theorem calculate_total_ne_nil (votes : List Vote) (candidates : List String)
    (hne : candidates ≠ []) : calculate_total votes candidates ≠ [] := by
  simpa [calculate_total] using hne

theorem preference_loop_error (active : List Vote) (candidates tied : List String)
    (allow_random : Bool) (levels : List Nat) (e : ElectionError)
    (h : preference_loop active candidates tied allow_random levels = .error e) :
    e = .unresolvedTie ∨ e = .randomTiebreak tied := by
  induction levels with
  | nil =>
    simp only [preference_loop] at h
    split at h
    · exact Or.inr (by injection h with h2; rw [h2])
    · exact Or.inl (by injection h with h2; rw [h2])
  | cons pref rest ih =>
    simp only [preference_loop] at h
    split at h
    · exact absurd h (by simp)
    · exact ih h

theorem tiebreak_error (p : RunParams) (votes : List Vote) (remaining : List String)
    (record : List (Nat × List ResultRow)) (tied : List String) (e : ElectionError)
    (h : tiebreak p votes remaining record tied = .error e) :
    e = .unresolvedTie ∨ e = .randomTiebreak tied := by
  simp only [tiebreak] at h
  split at h
  · exact absurd h (by simp)
  · exact preference_loop_error _ _ _ _ _ _ h

theorem elect_phase_error (p : RunParams) (result : List ResultRow) (winners : List String)
    (votes : List Vote) (remaining : List String) (e : ElectionError)
    (h : elect_phase p result winners votes remaining = .error e) :
    e = .invariantViolation := by
  simp only [elect_phase] at h
  split at h
  · simp at h
  · split at h
    · simp at h
    · split at h
      · simp at h
      · injection h with h2; exact h2.symm

theorem elim_phase_ne_impossible (p : RunParams) (result : List ResultRow)
    (winners' : List String) (votes' : List Vote) (remaining' : List String)
    (record' : List (Nat × List ResultRow))
    (hlow : find_lowest_candidates result ≠ []) :
    elim_phase p result winners' votes' remaining' record' ≠ .error .impossibleEmpty := by
  intro h
  simp only [elim_phase] at h
  split at h
  · split at h
    · split at h
      · simp at h
      · simp at h
    · rename_i e herr
      injection h with h2
      rw [h2] at herr
      rcases tiebreak_error _ _ _ _ _ _ herr with h3 | h3 <;> simp at h3
  · split at h
    · rename_i hnil; exact hlow hnil
    · split at h <;> simp at h

/-! ## C10 -/

/-- C10: whenever the set of remaining candidates tallied in a round is
non-empty, `find_lowest_candidates` applied to that round's result table
returns a non-empty candidate list, so the elimination step's error branch
for an empty lowest-candidate list (`run` line 220) is unreachable. -/
theorem c10_lowest_nonempty :
    (∀ (votes : List Vote) (candidates : List String), candidates ≠ [] →
      find_lowest_candidates (calculate_total votes candidates) ≠ []) ∧
    (∀ (p : RunParams) (round : Nat) (s : ElectionState), s.remaining ≠ [] →
      runRound p round s ≠ .error .impossibleEmpty) := by
  constructor
  · intro votes candidates hne
    exact find_lowest_candidates_ne_nil _ (calculate_total_ne_nil votes candidates hne)
  · intro p round s hne h
    have hres := calculate_total_ne_nil s.votes s.remaining hne
    have hlow := find_lowest_candidates_ne_nil _ hres
    simp only [runRound] at h
    rw [if_neg (by simpa [List.isEmpty_iff] using hres)] at h
    split at h
    · rename_i e heq
      injection h with h2
      rw [h2] at heq
      exact absurd (elect_phase_error _ _ _ _ _ _ heq) (by simp)
    · rename_i winners' votes' remaining' brk heq
      split at h
      · simp at h
      · split at h
        · rename_i e2 heq2
          injection h with h2
          rw [h2] at heq2
          exact elim_phase_ne_impossible _ _ _ _ _ _ hlow heq2
        · simp at h

/-- C10 witness: a concrete non-empty remaining set. -/
theorem c10_lowest_nonempty_witness :
    (["A"] : List String) ≠ [] ∧
    find_lowest_candidates (calculate_total [] ["A"]) ≠ [] :=
  ⟨by decide, c10_lowest_nonempty.1 [] ["A"] (by decide)⟩

/-! ## C9 -/

theorem elim_phase_record (p : RunParams) (result : List ResultRow)
    (winners' : List String) (votes' : List Vote) (remaining' : List String)
    (record' : List (Nat × List ResultRow)) (s' : ElectionState)
    (h : elim_phase p result winners' votes' remaining' record' = .ok s') :
    s'.record = record' := by
  simp only [elim_phase] at h
  split at h
  · split at h
    · split at h
      · injection h with h2; rw [← h2]
      · simp at h
    · simp at h
  · split at h
    · simp at h
    · split at h
      · injection h with h2; rw [← h2]
      · simp at h

theorem runRound_record (p : RunParams) (round : Nat) (s : ElectionState)
    (s' : ElectionState) (b : Bool) (h : runRound p round s = .ok (s', b)) :
    s'.record = s.record ++ [(round, calculate_total s.votes s.remaining)] := by
  simp only [runRound] at h
  split at h
  · simp at h
  · split at h
    · simp at h
    · split at h
      · injection h with h2
        injection h2 with h3 h4
        rw [← h3]
      · split at h
        · simp at h
        · rename_i s2 heq2
          injection h with h2
          injection h2 with h3 h4
          rw [← h3]
          exact elim_phase_record _ _ _ _ _ _ _ heq2

theorem runRounds_record_range (p : RunParams) :
    ∀ (k : Nat) (s s' : ElectionState),
      s.record.map Prod.fst = List.range' 1 s.record.length →
      runRounds p (List.range' (s.record.length + 1) k) s = .ok s' →
      s'.record.map Prod.fst = List.range' 1 s'.record.length ∧
        s'.record.length ≤ s.record.length + k := by
  intro k
  induction k with
  | zero =>
    intro s s' hmap h
    simp only [List.range', runRounds] at h
    injection h with h2
    rw [← h2]
    exact ⟨hmap, Nat.le_refl _⟩
  | succ n ih =>
    intro s s' hmap h
    rw [List.range'_succ] at h
    simp only [runRounds] at h
    split at h
    · simp at h
    · rename_i s1 heq1
      have hrec := runRound_record _ _ _ _ _ heq1
      have hmap1 : s1.record.map Prod.fst = List.range' 1 s1.record.length := by
        rw [hrec, List.map_append, hmap, List.length_append, List.length_singleton,
          List.range'_1_concat]
        simp [Nat.add_comm]
      have hlen1 : s1.record.length = s.record.length + 1 := by
        rw [hrec, List.length_append, List.length_singleton]
      injection h with h2
      rw [← h2]
      exact ⟨hmap1, by omega⟩
    · rename_i s1 heq1
      have hrec := runRound_record _ _ _ _ _ heq1
      have hmap1 : s1.record.map Prod.fst = List.range' 1 s1.record.length := by
        rw [hrec, List.map_append, hmap, List.length_append, List.length_singleton,
          List.range'_1_concat]
        simp [Nat.add_comm]
      have hlen1 : s1.record.length = s.record.length + 1 := by
        rw [hrec, List.length_append, List.length_singleton]
      have := ih s1 s' hmap1 (by rw [hlen1]; exact h)
      refine ⟨this.1, ?_⟩
      calc s'.record.length ≤ s1.record.length + n := this.2
        _ = s.record.length + (n + 1) := by omega

/-- C9: for every election over the table's candidate columns, a successful
run records at most `len(candidates)` rounds, numbered `1, 2, 3, ...` in
order (the record gains exactly one entry per executed round). -/
theorem c9_round_bound (votetable : VoteTable) (n_winners : Nat) (s' : ElectionState)
    (h : (ElectionManager.init votetable n_winners).run = .ok s') :
    s'.record.map Prod.fst = List.range' 1 s'.record.length ∧
      s'.record.length ≤ votetable.cols.length := by
  have := runRounds_record_range
    ⟨(ElectionManager.init votetable n_winners).quota, n_winners, votetable.cols, false⟩
    votetable.cols.length
    ⟨votetable.rows.map mkVote, votetable.cols, [], []⟩ s' (by simp) (by exact h)
  simpa using this

/-- C9 witness: one candidate and one ballot; the run succeeds in one round,
numbered 1. -/
theorem c9_round_bound_witness :
    (ElectionManager.init ⟨["A"], [⟨[("A", some 1)]⟩]⟩ 1).run =
      .ok ⟨[⟨⟨[("A", some 1)]⟩, 1⟩], ["A"], ["A"],
        [(1, [⟨"A", 1⟩])]⟩ ∧
    ([(1, [(⟨"A", 1⟩ : ResultRow)])].map Prod.fst = List.range' 1 1 ∧
      [(1, [(⟨"A", 1⟩ : ResultRow)])].length ≤ 1) := by
  refine ⟨by with_unfolding_all rfl, ?_⟩
  have := c9_round_bound ⟨["A"], [⟨[("A", some 1)]⟩]⟩ 1
    ⟨[⟨⟨[("A", some 1)]⟩, 1⟩], ["A"], ["A"], [(1, [⟨"A", 1⟩])]⟩
    (by with_unfolding_all rfl)
  exact this

/-! ## C8 -/

theorem elect_phase_winners (p : RunParams) (result : List ResultRow) (winners : List String)
    (votes : List Vote) (remaining : List String) (w' : List String) (v' : List Vote)
    (r' : List String) (b : Bool)
    (h : elect_phase p result winners votes remaining = .ok (w', v', r', b)) :
    w' = winners ∨ w'.length ≤ p.n_winners := by
  simp only [elect_phase] at h
  split at h
  · injection h with h2
    injection h2 with h3 h4
    exact Or.inl h3.symm
  · split at h
    · rename_i heqn
      injection h with h2
      injection h2 with h3 h4
      right
      rw [← h3]
      exact Nat.le_of_eq heqn
    · split at h
      · rename_i hlt
        injection h with h2
        injection h2 with h3 h4
        right
        rw [← h3]
        exact Nat.le_of_lt hlt
      · simp at h

theorem elim_phase_winners (p : RunParams) (result : List ResultRow)
    (winners' : List String) (votes' : List Vote) (remaining' : List String)
    (record' : List (Nat × List ResultRow)) (s' : ElectionState)
    (h : elim_phase p result winners' votes' remaining' record' = .ok s') :
    s'.winners = winners' := by
  simp only [elim_phase] at h
  split at h
  · split at h
    · split at h
      · injection h with h2; rw [← h2]
      · simp at h
    · simp at h
  · split at h
    · simp at h
    · split at h
      · injection h with h2; rw [← h2]
      · simp at h

theorem runRound_winners_le (p : RunParams) (round : Nat) (s : ElectionState)
    (s' : ElectionState) (b : Bool) (hle : s.winners.length ≤ p.n_winners)
    (h : runRound p round s = .ok (s', b)) : s'.winners.length ≤ p.n_winners := by
  simp only [runRound] at h
  split at h
  · simp at h
  · split at h
    · simp at h
    · rename_i w' v' r' brk heq
      have hw := elect_phase_winners _ _ _ _ _ _ _ _ _ heq
      split at h
      · injection h with h2
        injection h2 with h3 h4
        rw [← h3]
        rcases hw with hw | hw
        · rw [hw]; exact hle
        · exact hw
      · split at h
        · simp at h
        · rename_i s2 heq2
          injection h with h2
          injection h2 with h3 h4
          rw [← h3, elim_phase_winners _ _ _ _ _ _ _ heq2]
          rcases hw with hw | hw
          · rw [hw]; exact hle
          · exact hw

theorem runRounds_winners_le (p : RunParams) (rounds : List Nat) :
    ∀ (s s' : ElectionState), s.winners.length ≤ p.n_winners →
      runRounds p rounds s = .ok s' → s'.winners.length ≤ p.n_winners := by
  induction rounds with
  | nil =>
    intro s s' hle h
    simp only [runRounds] at h
    injection h with h2
    rw [← h2]; exact hle
  | cons r rs ih =>
    intro s s' hle h
    simp only [runRounds] at h
    split at h
    · simp at h
    · rename_i s1 heq1
      injection h with h2
      rw [← h2]
      exact runRound_winners_le _ _ _ _ _ hle heq1
    · rename_i s1 heq1
      exact ih s1 s' (runRound_winners_le _ _ _ _ _ hle heq1) h

/-- C8: the winners list of every state a successful run can reach is
bounded by the seat count; when a round's quota-reaching candidates would
push the winners list beyond the seat count, `elect_phase` raises
`invariantViolation` instead of returning the enlarged list; and a round's
error always aborts the whole loop (it is never recovered). -/
theorem c8_winner_bound :
    (∀ (p : RunParams) (result : List ResultRow) (winners : List String)
        (votes : List Vote) (remaining : List String),
        (result.filter (fun row => p.quota ≤ row.total)).isEmpty = false →
        p.n_winners <
          (winners ++
            (result.filter (fun row => p.quota ≤ row.total)).map ResultRow.candidate).length →
        elect_phase p result winners votes remaining = .error .invariantViolation) ∧
    (∀ (p : RunParams) (rounds : List Nat) (s s' : ElectionState),
        s.winners.length ≤ p.n_winners → runRounds p rounds s = .ok s' →
        s'.winners.length ≤ p.n_winners) ∧
    (∀ (p : RunParams) (r : Nat) (rs : List Nat) (s : ElectionState) (e : ElectionError),
        runRound p r s = .error e → runRounds p (r :: rs) s = .error e) := by
  refine ⟨?_, fun p rounds => runRounds_winners_le p rounds, ?_⟩
  · intro p result winners votes remaining hne hgt
    simp only [elect_phase, hne, Bool.false_eq_true, if_false]
    rw [if_neg (by omega), if_neg (by omega)]
  · intro p r rs s e h
    simp only [runRounds, h]

/-- C8 witness: two candidates at total 5 both reach quota 1 with a single
seat and no prior winners; electing both would exceed the seat count, so the
round fails with `invariantViolation`. -/
theorem c8_winner_bound_witness :
    (([⟨"A", 5⟩, ⟨"B", 5⟩] : List ResultRow).filter
        (fun row => (1 : ℚ) ≤ row.total)).isEmpty = false ∧
    elect_phase ⟨1, 1, ["A", "B"], false⟩ [⟨"A", 5⟩, ⟨"B", 5⟩] [] [] ["A", "B"] =
      .error .invariantViolation :=
  ⟨of_decide_eq_true (by with_unfolding_all rfl),
   c8_winner_bound.1 ⟨1, 1, ["A", "B"], false⟩ [⟨"A", 5⟩, ⟨"B", 5⟩] [] [] ["A", "B"]
     (of_decide_eq_true (by with_unfolding_all rfl))
     (of_decide_eq_true (by with_unfolding_all rfl))⟩

/-! ## C5 -/

theorem preference_loop_all_fail (active : List Vote) (candidates tied : List String)
    (levels : List Nat)
    (hlevels : ∀ pref ∈ levels,
      (find_lowest_candidates (preference_round active candidates tied pref)).length ≠ 1) :
    preference_loop active candidates tied false levels = .error .unresolvedTie := by
  induction levels with
  | nil => simp [preference_loop]
  | cons pref rest ih =>
    simp only [preference_loop]
    split
    · rename_i c heq
      have := hlevels pref (List.mem_cons_self _ _)
      rw [heq] at this
      simp at this
    · exact ih (fun q hq => hlevels q (List.mem_cons_of_mem _ hq))

/-- C5: when the backward stage fails, every preference level from `1` to
`len(candidates) - 1` fails to single out a unique minimum among the tied
candidates, and random tiebreaking is disabled (the default), `tiebreak`
fails with the unresolved-tie error and returns no candidate. -/
theorem c5_total_tie_error (p : RunParams) (votes : List Vote) (remaining : List String)
    (record : List (Nat × List ResultRow)) (tied : List String)
    (hrand : p.allow_random_tiebreak = false)
    (hback : backwards_tiebreak record tied = none)
    (hlevels : ∀ pref ∈ List.range' 1 (p.candidates.length - 1),
      (find_lowest_candidates
        (preference_round (active_votes votes remaining tied) p.candidates tied pref)).length
        ≠ 1) :
    tiebreak p votes remaining record tied = .error .unresolvedTie := by
  simp only [tiebreak, hback, preference_tiebreak, hrand]
  exact preference_loop_all_fail _ _ _ _ hlevels

/-- C5 witness: two candidates with one first-preference ballot each are
tied in round 1; the backward stage has nothing to distinguish them, level 1
ties again, and level 1 is the only level, so counting fails. -/
theorem c5_total_tie_error_witness :
    backwards_tiebreak [(1, [⟨"A", 1⟩, ⟨"B", 1⟩])] ["A", "B"] = none ∧
    tiebreak ⟨2, 1, ["A", "B"], false⟩
      [⟨⟨[("A", some 1), ("B", none)]⟩, 1⟩, ⟨⟨[("A", none), ("B", some 1)]⟩, 1⟩]
      ["A", "B"] [(1, [⟨"A", 1⟩, ⟨"B", 1⟩])] ["A", "B"] = .error .unresolvedTie :=
  ⟨of_decide_eq_true (by with_unfolding_all rfl),
   c5_total_tie_error ⟨2, 1, ["A", "B"], false⟩
     [⟨⟨[("A", some 1), ("B", none)]⟩, 1⟩, ⟨⟨[("A", none), ("B", some 1)]⟩, 1⟩]
     ["A", "B"] [(1, [⟨"A", 1⟩, ⟨"B", 1⟩])] ["A", "B"]
     rfl
     (of_decide_eq_true (by with_unfolding_all rfl))
     (of_decide_eq_true (by with_unfolding_all rfl))⟩

/-! ## C4 -/

theorem backwards_scan_skip (tied : List String) (l rest : List (Nat × List ResultRow))
    (hfail : ∀ e ∈ l,
      (find_lowest_candidates (e.2.filter (fun row => tied.contains row.candidate))).length
        ≠ 1) :
    backwards_scan tied (l ++ rest) = backwards_scan tied rest := by
  induction l with
  | nil => rfl
  | cons e t ih =>
    simp only [List.cons_append, backwards_scan]
    split
    · rename_i c heq
      have := hfail e (List.mem_cons_self _ _)
      rw [heq] at this
      simp at this
    · exact ih (fun x hx => hfail x (List.mem_cons_of_mem _ hx))

/-- C4: the tiebreak resolver scans the recorded history restricted to the
tied candidates from the most recent round backwards; if a round has a
unique lowest tied candidate and no later round does, that candidate is the
result, and the preference stage never runs (the result does not depend on
the votes or the remaining candidates); the preference stage runs exactly
when no recorded round disambiguates. -/
theorem c4_backwards_preferred (p : RunParams) (votes : List Vote)
    (remaining tied : List String) :
    (∀ (record₁ record₂ : List (Nat × List ResultRow)) (r : Nat) (tbl : List ResultRow)
        (c : String),
        find_lowest_candidates (tbl.filter (fun row => tied.contains row.candidate)) = [c] →
        (∀ e ∈ record₂,
          (find_lowest_candidates
            (e.2.filter (fun row => tied.contains row.candidate))).length ≠ 1) →
        tiebreak p votes remaining (record₁ ++ (r, tbl) :: record₂) tied = .ok c ∧
          ∀ (votes2 : List Vote) (remaining2 : List String),
            tiebreak p votes2 remaining2 (record₁ ++ (r, tbl) :: record₂) tied = .ok c) ∧
    (∀ record : List (Nat × List ResultRow),
        (∀ e ∈ record,
          (find_lowest_candidates
            (e.2.filter (fun row => tied.contains row.candidate))).length ≠ 1) →
        tiebreak p votes remaining record tied = preference_tiebreak p votes remaining tied) := by
  constructor
  · intro record₁ record₂ r tbl c hdis hafter
    have hscan : backwards_tiebreak (record₁ ++ (r, tbl) :: record₂) tied = some c := by
      unfold backwards_tiebreak
      rw [show (record₁ ++ (r, tbl) :: record₂).reverse =
        record₂.reverse ++ (r, tbl) :: record₁.reverse by simp,
        backwards_scan_skip tied record₂.reverse _
          (fun e he => hafter e (List.mem_reverse.mp he))]
      simp only [backwards_scan]
      rw [hdis]
    exact ⟨by simp [tiebreak, hscan], fun votes2 remaining2 => by simp [tiebreak, hscan]⟩
  · intro record hall
    have hnone : backwards_tiebreak record tied = none := by
      unfold backwards_tiebreak
      have := backwards_scan_skip tied record.reverse []
        (fun e he => hall e (List.mem_reverse.mp he))
      simpa using this
    simp [tiebreak, hnone]

/-- C4 witness: two recorded rounds; the most recent is tied between A and
C, round 1 has C uniquely lowest, so the backward stage eliminates C. -/
theorem c4_backwards_preferred_witness :
    find_lowest_candidates
        (([⟨"A", 2⟩, ⟨"C", 1⟩] : List ResultRow).filter
          (fun row => (["A", "C"] : List String).contains row.candidate)) = ["C"] ∧
    tiebreak ⟨3, 1, ["A", "B", "C"], false⟩ [] ["A", "C"]
      ([] ++ (1, [⟨"A", 2⟩, ⟨"C", 1⟩]) :: [(2, [⟨"A", 2⟩, ⟨"C", 2⟩])]) ["A", "C"] =
      .ok "C" :=
  ⟨of_decide_eq_true (by with_unfolding_all rfl),
   (c4_backwards_preferred ⟨3, 1, ["A", "B", "C"], false⟩ [] ["A", "C"] ["A", "C"] |>.1
     [] [(2, [⟨"A", 2⟩, ⟨"C", 2⟩])] 1 [⟨"A", 2⟩, ⟨"C", 1⟩] "C"
     (of_decide_eq_true (by with_unfolding_all rfl))
     (of_decide_eq_true (by with_unfolding_all rfl))).1⟩

/-! ## C1 -/

/-- The `winning_candidates` of a round (lines 196-198): the candidates of
the result rows whose total reaches the quota. -/
def winning_candidates_of (quota : ℚ) (result : List ResultRow) : List String :=
  (result.filter (fun row => quota ≤ row.total)).map ResultRow.candidate

/-- The claim's description of what the transfer step does to one ballot:
if its first preference restricted to `remaining` is a newly elected
candidate, its value is multiplied by `(total - quota) / total` computed
from that candidate's already-computed round total; otherwise it is left
unchanged. -/
def claimTransferredVote (quota : ℚ) (result : List ResultRow) (remaining winning : List String)
    (v : Vote) : Vote :=
  match v.voting_for remaining 1 with
  | some c =>
    if winning.contains c then
      ⟨v.vote, v.value * ((totalFor result c - quota) / totalFor result c)⟩
    else v
  | none => v

theorem voting_for_value (v : Vote) (x : ℚ) (valid : List String) (pref : Nat) :
    Vote.voting_for ⟨v.vote, x⟩ valid pref = v.voting_for valid pref := rfl

theorem claimTransferredVote_nil (quota : ℚ) (result : List ResultRow)
    (remaining : List String) (v : Vote) :
    claimTransferredVote quota result remaining [] v = v := by
  simp only [claimTransferredVote]
  split <;> simp

theorem claimTransferredVote_step (quota : ℚ) (result : List ResultRow)
    (remaining : List String) (w : String) (ws : List String) (hw : w ∉ ws) (v : Vote) :
    claimTransferredVote quota result remaining ws
      (if v.voting_for remaining 1 == some w then
        ⟨v.vote, v.value * ((totalFor result w - quota) / totalFor result w)⟩
      else v) =
    claimTransferredVote quota result remaining (w :: ws) v := by
  cases hv : v.voting_for remaining 1 with
  | none =>
    rw [if_neg (by simp [hv])]
    simp only [claimTransferredVote, hv]
  | some c =>
    by_cases hc : c = w
    · subst hc
      rw [if_pos (by simp [hv])]
      simp only [claimTransferredVote, voting_for_value, hv]
      rw [if_neg (by simpa using hw), if_pos (by simp)]
    · rw [if_neg (by simp [hv, hc])]
      simp only [claimTransferredVote, hv, List.contains_cons]
      rw [show (c == w) = false by simp [hc], Bool.false_or]

theorem transfer_votes_map (quota : ℚ) (result : List ResultRow) (remaining : List String) :
    ∀ (ws : List String), ws.Nodup → ∀ votes : List Vote,
      transfer_votes quota result remaining ws votes =
        votes.map (claimTransferredVote quota result remaining ws) := by
  intro ws
  induction ws with
  | nil =>
    intro _ votes
    simp only [transfer_votes, List.foldl_nil]
    have h := List.map_congr_left
      (fun (v : Vote) (_ : v ∈ votes) => claimTransferredVote_nil quota result remaining v)
    rw [h, List.map_id']
  | cons w ws ih =>
    intro hnd votes
    have hw : w ∉ ws := (List.nodup_cons.mp hnd).1
    have hnd' : ws.Nodup := (List.nodup_cons.mp hnd).2
    have hstep : transfer_votes quota result remaining (w :: ws) votes =
        transfer_votes quota result remaining ws
          (votes.map (fun v =>
            if v.voting_for remaining 1 == some w then
              ⟨v.vote, v.value * ((totalFor result w - quota) / totalFor result w)⟩
            else v)) := rfl
    rw [hstep, ih hnd', List.map_map]
    exact List.map_congr_left (fun v _ =>
      claimTransferredVote_step quota result remaining w ws hw v)

theorem calculate_total_candidates (votes : List Vote) (candidates : List String) :
    (calculate_total votes candidates).map ResultRow.candidate = candidates := by
  simp only [calculate_total, List.map_map]
  exact List.map_id candidates

theorem winning_candidates_nodup (quota : ℚ) (votes : List Vote) (candidates : List String)
    (hnodup : candidates.Nodup) :
    (winning_candidates_of quota (calculate_total votes candidates)).Nodup := by
  have hsub : List.Sublist (winning_candidates_of quota (calculate_total votes candidates))
      ((calculate_total votes candidates).map ResultRow.candidate) :=
    List.Sublist.map ResultRow.candidate (List.filter_sublist (calculate_total votes candidates))
  rw [calculate_total_candidates] at hsub
  exact hsub.nodup hnodup

theorem foldl_erase_eq_filter :
    ∀ (ws rem : List String), rem.Nodup →
      ws.foldl (fun r c => r.erase c) rem = rem.filter (fun c => !(ws.contains c)) := by
  intro ws
  induction ws with
  | nil =>
    intro rem _
    simp
  | cons w ws ih =>
    intro rem h
    simp only [List.foldl_cons]
    rw [ih (rem.erase w) (h.erase w), h.erase_eq_filter w, List.filter_filter]
    congr 1
    funext c
    by_cases hcw : c = w <;> by_cases hcs : c ∈ ws <;>
      simp [hcw, hcs, List.contains_cons]

/-- C1: in a round where at least one remaining candidate's total reaches
the quota but the winners found so far (including this round's) are fewer
than the seats, the election block elects exactly the quota-reaching
candidates, replaces every ballot by the claim's per-ballot transfer (the
value of every ballot whose first preference among the remaining candidates
is a newly elected candidate `c` is multiplied by
`(total(c) - quota) / total(c)` with `total(c)` read from the round's
already-computed result table), and removes all of the round's elected
candidates from the remaining set. -/
theorem c1_surplus_transfer (p : RunParams) (s : ElectionState)
    (hnodup : s.remaining.Nodup)
    (hW : ((calculate_total s.votes s.remaining).filter
      (fun row => p.quota ≤ row.total)).isEmpty = false)
    (hlt : (s.winners ++
      winning_candidates_of p.quota (calculate_total s.votes s.remaining)).length
      < p.n_winners) :
    elect_phase p (calculate_total s.votes s.remaining) s.winners s.votes s.remaining =
      .ok (s.winners ++ winning_candidates_of p.quota (calculate_total s.votes s.remaining),
        s.votes.map (claimTransferredVote p.quota (calculate_total s.votes s.remaining)
          s.remaining
          (winning_candidates_of p.quota (calculate_total s.votes s.remaining))),
        s.remaining.filter (fun c =>
          !((winning_candidates_of p.quota
            (calculate_total s.votes s.remaining)).contains c)),
        false) := by
  have hwnodup := winning_candidates_nodup p.quota s.votes s.remaining hnodup
  simp only [elect_phase, hW, Bool.false_eq_true, if_false]
  simp only [winning_candidates_of] at hlt hwnodup ⊢
  rw [if_neg (Nat.ne_of_lt hlt), if_pos hlt]
  rw [transfer_votes_map p.quota (calculate_total s.votes s.remaining) s.remaining
    (((calculate_total s.votes s.remaining).filter
      (fun row => p.quota ≤ row.total)).map ResultRow.candidate) hwnodup s.votes]
  rw [foldl_erase_eq_filter
    (((calculate_total s.votes s.remaining).filter
      (fun row => p.quota ≤ row.total)).map ResultRow.candidate) s.remaining hnodup]

/-- A concrete ballot set for the C1 witness: three ballots A then B, one
ballot B only, one ballot C only. -/
def c1Votes : List Vote :=
  [⟨⟨[("A", some 1), ("B", some 2), ("C", none)]⟩, 1⟩,
   ⟨⟨[("A", some 1), ("B", some 2), ("C", none)]⟩, 1⟩,
   ⟨⟨[("A", some 1), ("B", some 2), ("C", none)]⟩, 1⟩,
   ⟨⟨[("A", none), ("B", some 1), ("C", none)]⟩, 1⟩,
   ⟨⟨[("A", none), ("B", none), ("C", some 1)]⟩, 1⟩]

/-- C1 witness: two seats, quota 2; A polls 3 and is elected in round 1 with
transfer value `(3 - 2) / 3 = 1/3`, applied to the three ballots pointing
at A, and A is removed from the remaining candidates. -/
theorem c1_surplus_transfer_witness :
    (["A", "B", "C"] : List String).Nodup ∧
    ((calculate_total c1Votes ["A", "B", "C"]).filter
      (fun row => (2 : ℚ) ≤ row.total)).isEmpty = false ∧
    elect_phase ⟨2, 2, ["A", "B", "C"], false⟩ (calculate_total c1Votes ["A", "B", "C"])
      [] c1Votes ["A", "B", "C"] =
      .ok ([] ++ winning_candidates_of 2 (calculate_total c1Votes ["A", "B", "C"]),
        c1Votes.map (claimTransferredVote 2 (calculate_total c1Votes ["A", "B", "C"])
          ["A", "B", "C"]
          (winning_candidates_of 2 (calculate_total c1Votes ["A", "B", "C"]))),
        (["A", "B", "C"] : List String).filter (fun c =>
          !((winning_candidates_of 2
            (calculate_total c1Votes ["A", "B", "C"])).contains c)),
        false) := by
  refine ⟨by decide, of_decide_eq_true (by with_unfolding_all rfl), ?_⟩
  exact c1_surplus_transfer ⟨2, 2, ["A", "B", "C"], false⟩
    ⟨c1Votes, ["A", "B", "C"], [], []⟩
    (by decide)
    (of_decide_eq_true (by with_unfolding_all rfl))
    (of_decide_eq_true (by with_unfolding_all rfl))

/-! ## C6 -/

/-- A concrete election for C6: one seat, quota `floor(4/2)+1 = 3`; two
ballots for A alone, one ballot B then C, one ballot for C alone. -/
def c6Table : VoteTable :=
  ⟨["A", "B", "C"],
   [⟨[("A", some 1), ("B", none), ("C", none)]⟩,
    ⟨[("A", some 1), ("B", none), ("C", none)]⟩,
    ⟨[("A", none), ("B", some 1), ("C", some 2)]⟩,
    ⟨[("A", none), ("B", none), ("C", some 1)]⟩]⟩

/-- C6 counterexample: after two rounds of the `c6Table` election exactly
one candidate (A) remains for the one open seat with total 2, short of the
quota 3; the claim says the loop must now declare A a winner and terminate,
but the full run instead eliminates A in round 3 and ends with no winners
at all.  Moreover a round that starts with no remaining candidates fails
with an empty-table access instead of terminating. -/
theorem c6_counterexample :
    (runRounds ⟨3, 1, c6Table.cols, false⟩ [1, 2]
        ⟨c6Table.rows.map mkVote, c6Table.cols, [], []⟩).map
      (fun s => (s.remaining, s.winners)) = .ok (["A"], []) ∧
    (runRounds ⟨3, 1, c6Table.cols, false⟩ [1, 2]
        ⟨c6Table.rows.map mkVote, c6Table.cols, [], []⟩).map
      (fun s => calculate_total s.votes s.remaining) = .ok [⟨"A", 2⟩] ∧
    (ElectionManager.init c6Table 1).quota = 3 ∧
    ((ElectionManager.init c6Table 1).run).map ElectionState.winners = .ok [] ∧
    ((ElectionManager.init c6Table 1).run).map ElectionState.remaining = .ok [] ∧
    runRound ⟨3, 1, c6Table.cols, false⟩ 1 ⟨[], [], [], []⟩ =
      .error .emptyResultAccess := by
  refine ⟨?_, ?_, ?_, ?_, ?_, ?_⟩ <;> with_unfolding_all rfl

/-- C6 amended: the round loop has no declare-remaining-winners step and no
empty-set termination check.  Winners are only ever added when their round
total reaches the quota, and a round that starts with an empty remaining
set fails with an empty-table access error rather than terminating. -/
theorem c6_amended :
    (∀ (p : RunParams) (round : Nat) (s s' : ElectionState) (b : Bool),
        runRound p round s = .ok (s', b) →
        ∀ c ∈ s'.winners, c ∈ s.winners ∨
          ∃ row ∈ calculate_total s.votes s.remaining,
            row.candidate = c ∧ p.quota ≤ row.total) ∧
    (∀ (p : RunParams) (round : Nat) (s : ElectionState), s.remaining = [] →
        runRound p round s = .error .emptyResultAccess) := by
  constructor
  · intro p round s s' b h c hc
    have key : ∀ (w' : List String) (v' : List Vote) (r' : List String) (b' : Bool),
        elect_phase p (calculate_total s.votes s.remaining) s.winners s.votes s.remaining =
          .ok (w', v', r', b') →
        ∀ d ∈ w', d ∈ s.winners ∨
          ∃ row ∈ calculate_total s.votes s.remaining,
            row.candidate = d ∧ p.quota ≤ row.total := by
      intro w' v' r' b' he d hd
      simp only [elect_phase] at he
      split at he
      · injection he with h2
        injection h2 with h3 h4
        rw [← h3] at hd
        exact Or.inl hd
      · have hcases : w' = s.winners ++
            ((calculate_total s.votes s.remaining).filter
              (fun row => p.quota ≤ row.total)).map ResultRow.candidate := by
          split at he
          · injection he with h2
            injection h2 with h3 h4
            exact h3.symm
          · split at he
            · injection he with h2
              injection h2 with h3 h4
              exact h3.symm
            · simp at he
        rw [hcases] at hd
        rcases List.mem_append.mp hd with hmem | hmem
        · exact Or.inl hmem
        · right
          obtain ⟨row, hrow, hcand⟩ := List.mem_map.mp hmem
          have := List.mem_filter.mp hrow
          exact ⟨row, this.1, hcand, by simpa using this.2⟩
    simp only [runRound] at h
    split at h
    · simp at h
    · split at h
      · simp at h
      · rename_i w' v' r' brk heq
        split at h
        · injection h with h2
          injection h2 with h3 h4
          rw [← h3] at hc
          exact key w' v' r' brk heq c hc
        · split at h
          · simp at h
          · rename_i s2 heq2
            injection h with h2
            injection h2 with h3 h4
            rw [← h3, elim_phase_winners _ _ _ _ _ _ _ heq2] at hc
            exact key w' v' r' brk heq c hc
  · intro p round s hrem
    simp [runRound, calculate_total, hrem]

/-- C6 amended witness: the empty-remaining branch at a concrete state. -/
theorem c6_amended_witness :
    (⟨[], [], [], []⟩ : ElectionState).remaining = [] ∧
    runRound ⟨1, 1, [], false⟩ 1 ⟨[], [], [], []⟩ = .error .emptyResultAccess :=
  ⟨rfl, c6_amended.2 ⟨1, 1, [], false⟩ 1 ⟨[], [], [], []⟩ rfl⟩

/-! ## C2 -/

/-- A concrete role table for C2: five ballots, of which two are informal
(one entirely blank, one with a duplicated rank 1). -/
def c2Table : VoteTable :=
  ⟨["A", "B"],
   [⟨[("A", some 1), ("B", none)]⟩,
    ⟨[("A", some 1), ("B", none)]⟩,
    ⟨[("A", none), ("B", some 1)]⟩,
    ⟨[("A", none), ("B", none)]⟩,
    ⟨[("A", some 1), ("B", some 1)]⟩]⟩

/-- C2 evidence: `main` builds the manager on the role table directly, so
the quota is computed from all five rows — `floor(5/2)+1 = 3` — although
only three ballots are formal; counting the formal ballots alone would give
`floor(3/2)+1 = 2`.  `discard_informal_votes` exists but no counting path
invokes it. -/
theorem c2_quota_counts_informal :
    main_role_count c2Table 1 = (ElectionManager.init c2Table 1).run ∧
    (ElectionManager.init c2Table 1).quota = 3 ∧
    discarded_count c2Table.rows = 2 ∧
    (ElectionManager.init ⟨c2Table.cols, discard_informal_votes c2Table.rows⟩ 1).quota = 2 ∧
    (ElectionManager.init c2Table 1).quota ≠
      (ElectionManager.init ⟨c2Table.cols, discard_informal_votes c2Table.rows⟩ 1).quota := by
  refine ⟨rfl, ?_, ?_, ?_, ?_⟩ <;> exact of_decide_eq_true (by with_unfolding_all rfl)

/-! ## C3 -/

/-- The claim's validity criterion, stated the way the spec words it: a
ballot is informal iff it ranks zero candidates, or has no candidate at rank
1, or its ranked values sorted are not exactly `1..k` (with `k` forced to be
the number of ranked values). -/
def informalSpec (row : VoteRow) : Prop :=
  rankedValues row = [] ∨ 1 ∉ rankedValues row ∨
    List.insertionSort (· ≤ ·) (rankedValues row) ≠
      List.range' 1 (rankedValues row).length

theorem init_le_foldl_max (l : List ℕ) (a : ℕ) : a ≤ l.foldl max a := by
  induction l generalizing a with
  | nil => exact Nat.le_refl a
  | cons b t ih => exact Nat.le_trans (Nat.le_max_left a b) (ih (max a b))

theorem mem_le_foldl_max (l : List ℕ) (a : ℕ) : ∀ x ∈ l, x ≤ l.foldl max a := by
  induction l generalizing a with
  | nil => intro x hx; cases hx
  | cons b t ih =>
    intro x hx
    rcases List.mem_cons.mp hx with h | h
    · rw [h]
      simp only [List.foldl_cons]
      exact Nat.le_trans (Nat.le_max_right a b) (init_le_foldl_max t (max a b))
    · exact ih (max a b) x h

theorem foldl_max_mem (l : List ℕ) (a : ℕ) : l.foldl max a = a ∨ l.foldl max a ∈ l := by
  induction l generalizing a with
  | nil => left; rfl
  | cons b t ih =>
    simp only [List.foldl_cons]
    rcases ih (max a b) with h | h
    · rcases max_choice a b with h2 | h2
      · left; rw [h, h2]
      · right; rw [h, h2]; exact List.mem_cons_self _ _
    · right; exact List.mem_cons_of_mem _ h

theorem sorted_le_range' (s n : Nat) : List.Sorted (· ≤ ·) (List.range' s n) :=
  (List.pairwise_lt_range' s n).imp (fun h => Nat.le_of_lt h)

/-- Core equivalence behind C3: for a non-empty list of positive ranks, the
source's `1..max each exactly once` test succeeds exactly when the sorted
ranks are `1..k`. -/
theorem sequential_iff_sorted (l : List ℕ) (hpos : ∀ r ∈ l, 1 ≤ r) (hne : l ≠ []) :
    ((List.range' 1 (l.foldl max 0)).all
        (fun p => (l.filter (fun r => r == p)).length == 1) = true) ↔
      List.insertionSort (· ≤ ·) l = List.range' 1 l.length := by
  constructor
  · intro hall
    have hcount : ∀ p ∈ List.range' 1 (l.foldl max 0), List.count p l = 1 := by
      intro p hp
      have hb := List.all_eq_true.mp hall p hp
      have hlen : (l.filter (fun r => r == p)).length = 1 := by simpa using hb
      rw [List.count_eq_countP, List.countP_eq_length_filter]
      exact hlen
    have hperm : l.Perm (List.range' 1 (l.foldl max 0)) := by
      rw [List.perm_iff_count]
      intro a
      by_cases ha : a ∈ List.range' 1 (l.foldl max 0)
      · rw [hcount a ha, List.count_eq_one_of_mem (List.nodup_range' _ _) ha]
      · rw [List.count_eq_zero.mpr ha, List.count_eq_zero.mpr]
        intro hal
        exact ha (List.mem_range'_1.mpr
          ⟨hpos a hal, by have := mem_le_foldl_max l 0 a hal; omega⟩)
    have hlen : l.length = l.foldl max 0 := by simpa using hperm.length_eq
    have hsorted : List.insertionSort (· ≤ ·) l = List.range' 1 (l.foldl max 0) :=
      List.eq_of_perm_of_sorted ((List.perm_insertionSort _ l).trans hperm)
        (List.sorted_insertionSort _ l) (sorted_le_range' _ _)
    rw [hsorted, hlen]
  · intro hsort
    have hperm : l.Perm (List.range' 1 l.length) := by
      have h := List.perm_insertionSort (· ≤ ·) l
      rw [hsort] at h
      exact h.symm
    have hL1 : 1 ≤ l.length := List.length_pos.mpr hne
    have hLmem : l.length ∈ l := by
      rw [hperm.mem_iff]
      exact List.mem_range'_1.mpr ⟨hL1, by omega⟩
    have hmax : l.foldl max 0 = l.length := by
      have hub : ∀ x ∈ l, x ≤ l.length := by
        intro x hx
        have := List.mem_range'_1.mp (hperm.mem_iff.mp hx)
        omega
      rcases foldl_max_mem l 0 with h | h
      · have := mem_le_foldl_max l 0 _ hLmem
        omega
      · have hle1 := hub _ h
        have hle2 := mem_le_foldl_max l 0 _ hLmem
        omega
    rw [List.all_eq_true]
    intro p hp
    rw [hmax] at hp
    have hcnt : List.count p l = 1 := by
      rw [List.perm_iff_count.mp hperm p]
      exact List.count_eq_one_of_mem (List.nodup_range' _ _) hp
    rw [List.count_eq_countP, List.countP_eq_length_filter] at hcnt
    simpa using hcnt

theorem informal_iff (row : VoteRow) (hpos : ∀ r ∈ rankedValues row, 1 ≤ r) :
    informal_vote row = true ↔ informalSpec row := by
  by_cases hne : rankedValues row = []
  · constructor
    · intro _
      exact Or.inl hne
    · intro _
      simp [informal_vote, hne]
  · have hval : (rankedValues row).isEmpty = false := by
      simpa [List.isEmpty_iff] using hne
    by_cases h1 : (1 : ℕ) ∈ rankedValues row
    · have hcontains : (rankedValues row).contains 1 = true := by simpa using h1
      have hcore := sequential_iff_sorted (rankedValues row) hpos hne
      simp only [informal_vote, hval, Bool.false_eq_true, if_false, informalSpec,
        hcontains, Bool.not_true, Bool.false_or, Bool.not_eq_true']
      constructor
      · intro hb
        refine Or.inr (Or.inr ?_)
        intro hs
        rw [hcore.mpr hs] at hb
        cases hb
      · intro hor
        rcases hor with h | h | h
        · exact absurd h hne
        · exact absurd h1 h
        · rcases hb : (List.range' 1 ((rankedValues row).foldl max 0)).all
            (fun p => ((rankedValues row).filter (fun r => r == p)).length == 1) with _ | _
          · rfl
          · exact absurd (hcore.mp hb) h
    · have hcontains : (rankedValues row).contains 1 = false := by simpa using h1
      simp only [informal_vote, hval, Bool.false_eq_true, if_false, informalSpec, hcontains,
        Bool.not_false, Bool.true_or, true_iff]
      exact Or.inr (Or.inl h1)

theorem filter_length_split (p : VoteRow → Bool) (rows : List VoteRow) :
    (rows.filter p).length + (rows.filter (fun r => !p r)).length = rows.length := by
  induction rows with
  | nil => rfl
  | cons r t ih =>
    cases hr : p r <;> simp [List.filter_cons, hr] <;> omega

/-- C3: over ballots with positive ranks, the validator discards a ballot
iff it ranks zero candidates, has no rank 1, or its sorted ranked values are
not exactly `1..k`; the discarded tally counts exactly the discarded
ballots; the surviving ballots are an unmodified sublist of the input; and
every vote a manager built on the validator's output counts is formal, so a
discarded ballot contributes to no round total of that count. -/
theorem c3_validator (rows : List VoteRow)
    (hpos : ∀ row ∈ rows, ∀ r ∈ rankedValues row, 1 ≤ r) :
    (∀ row ∈ rows, (informal_vote row = true ↔ informalSpec row)) ∧
    discarded_count rows + (discard_informal_votes rows).length = rows.length ∧
    List.Sublist (discard_informal_votes rows) rows ∧
    (∀ (cols : List String) (n_winners : Nat),
      ∀ v ∈ (ElectionManager.init ⟨cols, discard_informal_votes rows⟩ n_winners).votes,
        informal_vote v.vote = false) := by
  refine ⟨fun row hrow => informal_iff row (hpos row hrow), ?_, ?_, ?_⟩
  · exact filter_length_split informal_vote rows
  · exact List.filter_sublist rows
  · intro cols n_winners v hv
    simp only [ElectionManager.init] at hv
    obtain ⟨row, hrow, hmk⟩ := List.mem_map.mp hv
    have := (List.mem_filter.mp hrow).2
    rw [← hmk]
    simpa using this

/-- C3 witness: the spec's example ballot ranking `{A:1, C:1}` (duplicate
rank) is discarded and counted, while a formal `{A:1, B:2}` ballot
survives. -/
theorem c3_validator_witness :
    (∀ row ∈ [(⟨[("A", some 1), ("B", none), ("C", some 1)]⟩ : VoteRow),
        ⟨[("A", some 1), ("B", some 2), ("C", none)]⟩],
      ∀ r ∈ rankedValues row, 1 ≤ r) ∧
    informal_vote ⟨[("A", some 1), ("B", none), ("C", some 1)]⟩ = true ∧
    discard_informal_votes
        [⟨[("A", some 1), ("B", none), ("C", some 1)]⟩,
         ⟨[("A", some 1), ("B", some 2), ("C", none)]⟩] =
      [⟨[("A", some 1), ("B", some 2), ("C", none)]⟩] ∧
    discarded_count
        [⟨[("A", some 1), ("B", none), ("C", some 1)]⟩,
         ⟨[("A", some 1), ("B", some 2), ("C", none)]⟩] = 1 ∧
    (∀ row ∈ [(⟨[("A", some 1), ("B", none), ("C", some 1)]⟩ : VoteRow),
        ⟨[("A", some 1), ("B", some 2), ("C", none)]⟩],
      (informal_vote row = true ↔ informalSpec row)) :=
  ⟨by decide, by decide, by decide, by decide,
   (c3_validator
     [⟨[("A", some 1), ("B", none), ("C", some 1)]⟩,
      ⟨[("A", some 1), ("B", some 2), ("C", none)]⟩] (by decide)).1⟩

/-! ## C7 -/

theorem insertByRank_perm (p : String × Nat) (l : List (String × Nat)) :
    (insertByRank p l).Perm (p :: l) := by
  induction l with
  | nil => exact List.Perm.refl _
  | cons q qs ih =>
    simp only [insertByRank]
    split
    · exact List.Perm.refl _
    · exact (ih.cons q).trans (List.Perm.swap p q qs)

theorem sortByRank_perm (l : List (String × Nat)) : (sortByRank l).Perm l := by
  induction l with
  | nil => exact List.Perm.refl _
  | cons p ps ih => exact (insertByRank_perm p (sortByRank ps)).trans (ih.cons p)

theorem insertByRank_pairwise (p : String × Nat) (l : List (String × Nat))
    (h : List.Pairwise (fun a b => a.2 ≤ b.2) l) :
    List.Pairwise (fun a b => a.2 ≤ b.2) (insertByRank p l) := by
  induction l with
  | nil => simp [insertByRank]
  | cons q qs ih =>
    simp only [insertByRank]
    split
    · rename_i hle
      refine List.Pairwise.cons ?_ h
      intro b hb
      rcases List.mem_cons.mp hb with rfl | hb
      · exact hle
      · exact Nat.le_trans hle (List.rel_of_pairwise_cons h hb)
    · rename_i hgt
      refine List.Pairwise.cons ?_ (ih (List.pairwise_cons.mp h).2)
      intro b hb
      rcases List.mem_cons.mp ((insertByRank_perm p qs).mem_iff.mp hb) with rfl | hb'
      · exact Nat.le_of_lt (Nat.lt_of_not_le hgt)
      · exact List.rel_of_pairwise_cons h hb'

theorem sortByRank_pairwise (l : List (String × Nat)) :
    List.Pairwise (fun a b => a.2 ≤ b.2) (sortByRank l) := by
  induction l with
  | nil => simp [sortByRank]
  | cons p ps ih => exact insertByRank_pairwise p (sortByRank ps) ih

theorem sortByRank_pairwise_lt (l : List (String × Nat))
    (hnd : (l.map Prod.snd).Nodup) :
    List.Pairwise (fun a b => a.2 < b.2) (sortByRank l) := by
  have hle := sortByRank_pairwise l
  have hnd2 : ((sortByRank l).map Prod.snd).Nodup :=
    (((sortByRank_perm l).map Prod.snd).nodup_iff).mpr hnd
  exact (hle.and ((List.pairwise_map).mp hnd2)).imp
    (fun h => Nat.lt_of_le_of_ne h.1 h.2)

theorem pairwise_lt_getElem_filter (s : List (String × Nat))
    (hp : List.Pairwise (fun a b => a.2 < b.2) s) :
    ∀ (i : Nat) (e : String × Nat), s[i]? = some e →
      (s.filter (fun q => q.2 < e.2)).length = i := by
  induction s with
  | nil => intro i e h; simp at h
  | cons a t ih =>
    intro i e h
    match i with
    | 0 =>
      rw [List.getElem?_cons_zero] at h
      injection h with h2
      subst h2
      rw [List.filter_cons, if_neg (by simp)]
      have hnil : t.filter (fun q => q.2 < a.2) = [] := by
        rw [List.filter_eq_nil_iff]
        intro q hq
        have := List.rel_of_pairwise_cons hp hq
        simp only [decide_eq_true_eq]
        omega
      rw [hnil]
      rfl
    | Nat.succ j =>
      rw [List.getElem?_cons_succ] at h
      have he : e ∈ t := List.getElem?_mem h
      have ha : a.2 < e.2 := List.rel_of_pairwise_cons hp he
      rw [List.filter_cons, if_pos (by simpa using ha), List.length_cons,
        ih (List.pairwise_cons.mp hp).2 j e h]

theorem lookupRank_mem (prefs : List (String × Option Nat)) (c : String) (r : Nat)
    (h : lookupRank prefs c = some r) : (c, some r) ∈ prefs := by
  simp only [lookupRank] at h
  split at h
  · rename_i q hq
    have hq1 : q.1 = c := by simpa using List.find?_some hq
    have hqmem := List.mem_of_find?_eq_some hq
    have : q = (c, some r) := Prod.ext hq1 h
    rw [← this]
    exact hqmem
  · cases h

theorem activeEntries_fst_mem (row : VoteRow) (valid : List String) (e : String × Nat)
    (h : e ∈ activeEntries row valid) :
    e.1 ∈ valid ∧ lookupRank row.prefs e.1 = some e.2 := by
  simp only [activeEntries] at h
  obtain ⟨c, hc, hmap⟩ := List.mem_filterMap.mp h
  obtain ⟨r, hr, hre⟩ := Option.map_eq_some'.mp hmap
  rw [← hre]
  exact ⟨hc, hr⟩

theorem filterMap_not_nodup {α β : Type} (f : α → Option β) (l : List α) (x y : α) (b : β)
    (hxy : x ≠ y) (hx : x ∈ l) (hy : y ∈ l) (hfx : f x = some b) (hfy : f y = some b) :
    ¬ (l.filterMap f).Nodup := by
  induction l with
  | nil => cases hx
  | cons a t ih =>
    intro hnd
    rcases List.mem_cons.mp hx with rfl | hx'
    · have hyt : y ∈ t := by
        rcases List.mem_cons.mp hy with h | h
        · exact absurd h.symm hxy
        · exact h
      rw [List.filterMap_cons, hfx] at hnd
      exact (List.nodup_cons.mp hnd).1 (List.mem_filterMap.mpr ⟨y, hyt, hfy⟩)
    · rcases List.mem_cons.mp hy with rfl | hy'
      · rw [List.filterMap_cons, hfy] at hnd
        exact (List.nodup_cons.mp hnd).1 (List.mem_filterMap.mpr ⟨x, hx', hfx⟩)
      · cases hfa : f a
        · rw [List.filterMap_cons, hfa] at hnd
          exact ih hx' hy' hnd
        · rw [List.filterMap_cons, hfa] at hnd
          exact ih hx' hy' (List.nodup_cons.mp hnd).2

theorem activeEntries_snd_nodup (row : VoteRow) (valid : List String)
    (hranks : (rankedValues row).Nodup) (hvalid : valid.Nodup) :
    ((activeEntries row valid).map Prod.snd).Nodup := by
  induction valid with
  | nil => simp [activeEntries]
  | cons c cs ih =>
    have hv := List.nodup_cons.mp hvalid
    simp only [activeEntries, List.filterMap_cons]
    cases hl : (lookupRank row.prefs c).map (fun r => ((c, r) : String × Nat)) with
    | none => exact ih hv.2
    | some e =>
      obtain ⟨r, hr, he⟩ := Option.map_eq_some'.mp hl
      rw [List.map_cons, List.nodup_cons]
      refine ⟨?_, ih hv.2⟩
      rw [← he]
      intro hmem
      obtain ⟨e2, he2mem, he2snd⟩ := List.mem_map.mp hmem
      have hfst := activeEntries_fst_mem row cs e2 he2mem
      have hne : c ≠ e2.1 := fun hcc => hv.1 (hcc ▸ hfst.1)
      have hmem1 : (c, some r) ∈ row.prefs := lookupRank_mem row.prefs c r hr
      have hmem2 : (e2.1, some r) ∈ row.prefs := by
        have := lookupRank_mem row.prefs e2.1 e2.2 hfst.2
        rw [he2snd] at this
        exact this
      exact filterMap_not_nodup Prod.snd row.prefs (c, some r) (e2.1, some r) r
        (by simp [hne]) hmem1 hmem2 rfl rfl hranks

/-- C7: for a ballot with unique ranks, `voting_for` returns `none` exactly
when the ballot ranks fewer than `preference` candidates among the valid
list, and otherwise returns the candidate whose rank is the
`preference`-th smallest among the ballot's ranked candidates restricted to
the valid list (exactly `preference - 1` restricted entries carry a smaller
rank). -/
theorem c7_voting_for (v : Vote) (valid : List String) (p : Nat)
    (hp : 1 ≤ p)
    (hranks : (rankedValues v.vote).Nodup)
    (hvalid : valid.Nodup) :
    (v.voting_for valid p = none ↔ (activeEntries v.vote valid).length < p) ∧
    (∀ c : String, v.voting_for valid p = some c →
      ∃ r : Nat, (c, r) ∈ activeEntries v.vote valid ∧
        ((activeEntries v.vote valid).filter (fun e => e.2 < r)).length = p - 1) := by
  have hsnd := activeEntries_snd_nodup v.vote valid hranks hvalid
  have hlt := sortByRank_pairwise_lt (activeEntries v.vote valid) hsnd
  have hperm := sortByRank_perm (activeEntries v.vote valid)
  constructor
  · simp only [Vote.voting_for]
    rw [Option.map_eq_none', List.getElem?_eq_none_iff, hperm.length_eq]
    omega
  · intro c hc
    simp only [Vote.voting_for] at hc
    obtain ⟨e, he, hce⟩ := Option.map_eq_some'.mp hc
    have hemem : e ∈ sortByRank (activeEntries v.vote valid) := List.getElem?_mem he
    refine ⟨e.2, ?_, ?_⟩
    · have hmemA : e ∈ activeEntries v.vote valid := hperm.subset hemem
      rw [← hce]
      simpa using hmemA
    · have hidx := pairwise_lt_getElem_filter _ hlt (p - 1) e he
      have hcnt : ((sortByRank (activeEntries v.vote valid)).filter
            (fun q => q.2 < e.2)).length =
          ((activeEntries v.vote valid).filter (fun q => q.2 < e.2)).length := by
        rw [← List.countP_eq_length_filter, ← List.countP_eq_length_filter]
        exact hperm.countP_eq _
      rw [← hcnt, hidx]

/-- C7 witness: a ballot ranking A first, B second, C third, with B
eliminated; restricted to `[A, C]`, preference level 2 is C, which has
exactly one smaller-ranked entry, and level 3 is `none`. -/
theorem c7_voting_for_witness :
    (rankedValues ⟨[("A", some 1), ("B", some 2), ("C", some 3)]⟩).Nodup ∧
    (Vote.voting_for ⟨⟨[("A", some 1), ("B", some 2), ("C", some 3)]⟩, 1⟩ ["A", "C"] 2 =
      some "C") ∧
    (∃ r : Nat, ("C", r) ∈ activeEntries ⟨[("A", some 1), ("B", some 2), ("C", some 3)]⟩
        ["A", "C"] ∧
      ((activeEntries ⟨[("A", some 1), ("B", some 2), ("C", some 3)]⟩ ["A", "C"]).filter
        (fun e => e.2 < r)).length = 2 - 1) := by
  refine ⟨by decide, by decide, ?_⟩
  exact (c7_voting_for ⟨⟨[("A", some 1), ("B", some 2), ("C", some 3)]⟩, 1⟩ ["A", "C"] 2
    (by decide) (by decide) (by decide)).2 "C" (by decide)

end GFV
